import Mathlib

/-
Verification of the bolt-lattice-architect security gateway and adversarial
harness.

The normalizer and the gateway are embedded from
`src/security/useSecureGateway.ts`; the harness (attack-vector generation,
subset selection, report construction, batched dispatch) is embedded from the
adversarial-testing framework module.  JavaScript strings are modelled as
`List Char` (with a `String` wrapper) and `Math.random`-driven choices as an
abstract oracle.  JavaScript numbers are modelled in two layers:

* an exact-integer layer (`parseIntJS`, `intDigits`, `normalizeIp`), with the
  explicit `% 2 ^ 32` reduction that `>>>` performs — bit-faithful to the
  program while every number stays below `2 ^ 53`;
* an IEEE-754 layer (`jsRound`, `parseIntFl`, `jsNumToString`,
  `normalizeIpFl`) with double rounding (nearest, ties to even, overflow to
  `Infinity`) and the ECMAScript `Number::toString` shortest-decimal
  algorithm including its exponential notation from `10 ^ 21` on — used to
  settle behaviour outside the exact regime, where the two layers diverge.
-/

namespace BoltLattice

/-! ### Character classes (JS regexes `\d`, `[0-9a-fA-F]`, whitespace) -/

/-- Code points treated as whitespace by `String.prototype.trim` and by
`parseInt`'s leading-whitespace skip. -/
def wsCodes : List Nat :=
  [9, 10, 11, 12, 13, 32, 160, 5760, 8192, 8193, 8194, 8195, 8196, 8197,
   8198, 8199, 8200, 8201, 8202, 8232, 8233, 8239, 8287, 12288, 65279]

def isJsWs (c : Char) : Bool := decide (c.toNat ∈ wsCodes)

/-- JS regex `\d` (ASCII digits only). -/
def isDigitB (c : Char) : Bool := decide (48 ≤ c.toNat ∧ c.toNat ≤ 57)

/-- JS regex character class `[0-9a-fA-F]`. -/
def isHexDigitB (c : Char) : Bool :=
  decide ((48 ≤ c.toNat ∧ c.toNat ≤ 57) ∨ (97 ≤ c.toNat ∧ c.toNat ≤ 102) ∨
          (65 ≤ c.toNat ∧ c.toNat ≤ 70))

/-- Digit value used by `parseInt`: `0`-`9`, then letters case-insensitively;
`255` marks a character that is no digit in any radix ≤ 36. -/
def charVal (c : Char) : Nat :=
  if 48 ≤ c.toNat ∧ c.toNat ≤ 57 then c.toNat - 48
  else if 97 ≤ c.toNat ∧ c.toNat ≤ 122 then c.toNat - 87
  else if 65 ≤ c.toNat ∧ c.toNat ≤ 90 then c.toNat - 55
  else 255

/-! ### `String.prototype.trim` -/

def jsTrimL (l : List Char) : List Char :=
  ((l.dropWhile isJsWs).reverse.dropWhile isJsWs).reverse

/-! ### Number-to-string (`Number.prototype.toString` on exact integers) -/

def digitChar : Nat → Char
  | 0 => '0' | 1 => '1' | 2 => '2' | 3 => '3' | 4 => '4'
  | 5 => '5' | 6 => '6' | 7 => '7' | 8 => '8' | _ => '9'

def natDigitsAux : Nat → Nat → List Char
  | 0, _ => []
  | fuel + 1, n =>
    if n < 10 then [digitChar n]
    else natDigitsAux fuel (n / 10) ++ [digitChar (n % 10)]

/-- Decimal digit string of a natural number, most significant digit first. -/
def natDigits (n : Nat) : List Char := natDigitsAux (n + 1) n

/-- `Number.prototype.toString` for exact integer values. -/
def intDigits (i : Int) : List Char :=
  if i < 0 then '-' :: natDigits i.natAbs else natDigits i.toNat

/-- Rendering of a `parseInt` result: `NaN` stringifies to `"NaN"`. -/
def intOptToString : Option Int → List Char
  | none => ['N', 'a', 'N']
  | some i => intDigits i

/-! ### `parseInt(string, radix)` (exact-integer model) -/

/-- Optional leading sign: returns the sign factor and the rest. -/
def parseSign (l : List Char) : Int × List Char :=
  if l.head? = some '-' then (-1, l.tail)
  else if l.head? = some '+' then (1, l.tail)
  else (1, l)

/-- For radix 16, `parseInt` strips a leading `0x`/`0X`. -/
def stripHex (radix : Nat) (l : List Char) : List Char :=
  if radix = 16 ∧ (l.take 2 = ['0', 'x'] ∨ l.take 2 = ['0', 'X']) then l.drop 2
  else l

/-- Value of a digit string in the given radix. -/
def parseDigits (radix : Nat) (l : List Char) : Nat :=
  l.foldl (fun acc c => acc * radix + charVal c) 0

/-- The longest prefix of valid digits that `parseInt` consumes. -/
def digitsOf (radix : Nat) (l : List Char) : List Char :=
  (stripHex radix (parseSign (l.dropWhile isJsWs)).2).takeWhile
    (fun c => charVal c < radix)

/-- `parseInt(l, radix)`; `none` models `NaN` (no valid digit found). -/
def parseIntJS (radix : Nat) (l : List Char) : Option Int :=
  if digitsOf radix l = [] then none
  else some ((parseSign (l.dropWhile isJsWs)).1 * (parseDigits radix (digitsOf radix l) : Nat))

/-! ### Dotted-quad helpers -/

/-- `split('.')` on a character list. -/
def splitDots : List Char → List (List Char)
  | [] => [[]]
  | c :: rest =>
    if c = '.' then [] :: splitDots rest
    else
      match splitDots rest with
      | [] => [[c]]
      | p :: ps => (c :: p) :: ps

/-- `Array.prototype.join('.')`. -/
def joinDots : List (List Char) → List Char
  | [] => []
  | [p] => p
  | p :: ps => p ++ '.' :: joinDots ps

/-- ECMAScript `ToUint32` applied to a `parseInt` result
(`ToUint32(NaN) = 0`). -/
def jsToUint32 : Option Int → Nat
  | none => 0
  | some i => (i % (2 ^ 32 : Int)).toNat

/-- `[(num>>>24)&0xFF, (num>>>16)&0xFF, (num>>>8)&0xFF, num&0xFF].join('.')`. -/
def octetsL (num : Nat) : List Char :=
  joinDots [natDigits ((num >>> 24) &&& 255), natDigits ((num >>> 16) &&& 255),
            natDigits ((num >>> 8) &&& 255), natDigits (num &&& 255)]

/-! ### The normalizer (`normalizeIp` in `useSecureGateway.ts`) -/

/-- Regex `^\d+$`. -/
def allDigits (l : List Char) : Bool := !l.isEmpty && l.all isDigitB

/-- Regex `^0x[0-9a-fA-F]+$`. -/
def isHexLit (l : List Char) : Bool :=
  decide (l.take 2 = ['0', 'x']) && !(l.drop 2).isEmpty && (l.drop 2).all isHexDigitB

/-- One element of `parts.map(...)` in step 4 of the normalizer: hex if
`0x`-prefixed, octal if zero-leading with length > 1, else decimal. -/
def normalizePart (part : List Char) : List Char :=
  if part.take 2 = ['0', 'x'] then intOptToString (parseIntJS 16 part)
  else if part.head? = some '0' ∧ 1 < part.length then intOptToString (parseIntJS 8 part)
  else intOptToString (parseIntJS 10 part)

def normalizeIpL (l : List Char) : List Char :=
  if allDigits (jsTrimL l) then octetsL (jsToUint32 (parseIntJS 10 (jsTrimL l)))
  else if isHexLit (jsTrimL l) then octetsL (jsToUint32 (parseIntJS 16 (jsTrimL l)))
  else if (splitDots (jsTrimL l)).length = 4 then
    joinDots ((splitDots (jsTrimL l)).map normalizePart)
  else jsTrimL l

/-- `normalizeIp` from `src/security/useSecureGateway.ts`. -/
def normalizeIp (s : String) : String := ⟨normalizeIpL s.data⟩

/-- The three possible output forms of the normalizer: a 32-bit octet
rendering, a rejoined dotted quad of part-normalizations, or the trimmed
input passed through unchanged. -/
def NormOutcome (s t : String) : Prop :=
  (∃ n, t.data = octetsL n) ∨
  (∃ ps : List (List Char), ps.length = 4 ∧ t.data = joinDots (ps.map normalizePart)) ∨
  t.data = jsTrimL s.data

/-! ### IEEE-754 double refinement

The definitions above use exact integers, which is bit-faithful to
JavaScript only while every number stays below `2 ^ 53`.  The following
layer refines them with genuine double semantics — `parseInt` rounding to
the nearest double (ties to even, overflow to `Infinity`) and the
ECMAScript `Number::toString` shortest-decimal algorithm with its
exponential notation from `10 ^ 21` on — so that behaviour outside the
exact regime can be settled as well. -/

def natLog2Aux : Nat → Nat → Nat
  | 0, _ => 0
  | fuel + 1, n => if n < 2 then 0 else natLog2Aux fuel (n / 2) + 1

/-- Floor of the base-2 logarithm (fuel-driven so that it evaluates by
kernel reduction). -/
def natLog2 (n : Nat) : Nat := natLog2Aux (n + 1) n

/-- Round a nonnegative integer to the nearest IEEE-754 double
(round-half-to-even); `none` is overflow to `Infinity`.  Integers below
`2 ^ 53` are exactly representable; in the binade `[2^e, 2^(e+1))` the
spacing is `2 ^ (e - 52)`. -/
def ulpOf (v : Nat) : Nat := 2 ^ (natLog2 v - 52)

/-- Nearest multiple of the spacing `ulpOf v`, ties to the even
significand. -/
def jsRoundAux (v : Nat) : Nat :=
  if 2 * (v % ulpOf v) < ulpOf v then v / ulpOf v * ulpOf v
  else if ulpOf v < 2 * (v % ulpOf v) then (v / ulpOf v + 1) * ulpOf v
  else if (v / ulpOf v) % 2 = 0 then v / ulpOf v * ulpOf v
  else (v / ulpOf v + 1) * ulpOf v

def jsRound (v : Nat) : Option Nat :=
  if v < 2 ^ 53 then some v
  else if 2 ^ 1024 ≤ jsRoundAux v then none
  else some (jsRoundAux v)

/-- A JavaScript number as produced by `parseInt`: `NaN`, a signed
infinity, or a finite integer-valued double. -/
inductive JsNum where
  | nan : JsNum
  | inf : Bool → JsNum
  | int : Int → JsNum
deriving Repr, DecidableEq

/-- `parseInt` with IEEE-754 result: the exact digit value is rounded to
the nearest double (or overflows to a signed `Infinity`). -/
def parseIntFl (radix : Nat) (l : List Char) : JsNum :=
  if digitsOf radix l = [] then .nan
  else
    match jsRound (parseDigits radix (digitsOf radix l)) with
    | none => .inf (decide ((parseSign (l.dropWhile isJsWs)).1 < 0))
    | some m => .int ((parseSign (l.dropWhile isJsWs)).1 * m)

/-- ECMAScript `ToUint32` (`NaN` and the infinities map to 0). -/
def jsToUint32Fl : JsNum → Nat
  | .nan => 0
  | .inf _ => 0
  | .int i => (i % (2 ^ 32 : Int)).toNat

/-- One step of the ES `Number::toString` shortest-decimal search: the two
`k`-significant-digit decimals bracketing `m` (where `t = 10 ^ (p - k)`);
a candidate is valid when it rounds back to the double `m`; of two valid
candidates the closer wins, a tie goes to the even significand. -/
def tryK (m t : Nat) : Option Nat :=
  if jsRound (m / t * t) = some m ∧ jsRound (m / t * t + t) = some m then
    some (if m - m / t * t < m / t * t + t - m then m / t * t
          else if m / t * t + t - m < m - m / t * t then m / t * t + t
          else if (m / t) % 2 = 0 then m / t * t else m / t * t + t)
  else if jsRound (m / t * t) = some m then some (m / t * t)
  else if jsRound (m / t * t + t) = some m then some (m / t * t + t)
  else none

/-- Search for the least number of significant digits whose rounding
recovers the double `m`; returns the decimal value to print. -/
def shortestAux : Nat → Nat → Nat → Nat
  | 0, m, _ => m
  | fuel + 1, m, k =>
    if (natDigits m).length ≤ k then m
    else
      match tryK m (10 ^ ((natDigits m).length - k)) with
      | some v => v
      | none => shortestAux fuel m (k + 1)

def jsShortest (m : Nat) : Nat := shortestAux (natDigits m).length m 1

/-- Exponential rendering `d.ddd` + exponent marker of a digit string
(the significand is the digits with trailing zeros stripped, the exponent
is one less than the digit count). -/
def expSci (digs : List Char) : List Char :=
  match (digs.reverse.dropWhile (fun c => c = '0')).reverse with
  | [] => ['0']
  | [d] => d :: 'e' :: '+' :: natDigits (digs.length - 1)
  | d :: rest => d :: '.' :: (rest ++ 'e' :: '+' :: natDigits (digs.length - 1))

/-- ES `Number::toString` for a nonnegative integer-valued double: plain
digits below `10 ^ 21`, exponential notation from `10 ^ 21` on. -/
def jsIntToString (m : Nat) : List Char :=
  if m = 0 then ['0']
  else if (natDigits (jsShortest m)).length ≤ 21 then natDigits (jsShortest m)
  else expSci (natDigits (jsShortest m))

def jsNumToString : JsNum → List Char
  | .nan => ['N', 'a', 'N']
  | .inf true => ['-', 'I', 'n', 'f', 'i', 'n', 'i', 't', 'y']
  | .inf false => ['I', 'n', 'f', 'i', 'n', 'i', 't', 'y']
  | .int i => if i < 0 then '-' :: jsIntToString i.natAbs else jsIntToString i.toNat

/-- The radix the dotted-part normalization selects for a part. -/
def partRadix (p : List Char) : Nat :=
  if p.take 2 = ['0', 'x'] then 16
  else if p.head? = some '0' ∧ 1 < p.length then 8
  else 10

/-- `normalizePart` with IEEE-754 number semantics. -/
def normalizePartFl (part : List Char) : List Char :=
  if part.take 2 = ['0', 'x'] then jsNumToString (parseIntFl 16 part)
  else if part.head? = some '0' ∧ 1 < part.length then jsNumToString (parseIntFl 8 part)
  else jsNumToString (parseIntFl 10 part)

/-- The octet join with each element printed through `Number::toString`. -/
def octetsFlL (num : Nat) : List Char :=
  joinDots [jsNumToString (.int (((num >>> 24) &&& 255 : Nat) : Int)),
            jsNumToString (.int (((num >>> 16) &&& 255 : Nat) : Int)),
            jsNumToString (.int (((num >>> 8) &&& 255 : Nat) : Int)),
            jsNumToString (.int ((num &&& 255 : Nat) : Int))]

/-- `normalizeIp` with IEEE-754 number semantics (`parseInt` rounding and
overflow, `toString` shortest-decimal and exponential notation). -/
def normalizeIpFlL (l : List Char) : List Char :=
  if allDigits (jsTrimL l) then octetsFlL (jsToUint32Fl (parseIntFl 10 (jsTrimL l)))
  else if isHexLit (jsTrimL l) then octetsFlL (jsToUint32Fl (parseIntFl 16 (jsTrimL l)))
  else if (splitDots (jsTrimL l)).length = 4 then
    joinDots ((splitDots (jsTrimL l)).map normalizePartFl)
  else jsTrimL l

def normalizeIpFl (s : String) : String := ⟨normalizeIpFlL s.data⟩

/-- Every dot-separated part of the trimmed input parses, at the radix the
algorithm selects for it, to a value of magnitude below `2 ^ 53` — the
regime where doubles are exact. -/
def smallParts (l : List Char) : Bool :=
  (splitDots (jsTrimL l)).all fun p =>
    match parseIntJS (partRadix p) p with
    | none => true
    | some i => decide (i.natAbs < 2 ^ 53)

/-! ### The gateway (`useSecureGateway`) -/

def APPROVED_IPS : List String := ["10.0.0.5", "192.168.1.50"]

structure GatewayResult (β : Type) where
  success : Bool
  destination : String
  payload : β
  verified : Bool
deriving Repr, DecidableEq

/-- `useSecureGateway(targetIp, data)`.  The ML-KEM collaborator (key
generation plus payload encryption) is out of scope and modelled as an
abstract `encrypt` function; the thrown policy error becomes `Except.error`
carrying the exact message the source builds. -/
def useSecureGateway {α β : Type} (encrypt : α → β) (targetIp : String) (data : α) :
    Except String (GatewayResult β) :=
  if (APPROVED_IPS.contains (normalizeIp targetIp)) = false then
    .error ("CFG Policy Violation: IP " ++ targetIp ++ " (normalized: " ++
            normalizeIp targetIp ++ ") is not in the approved whitelist.")
  else
    .ok { success := true, destination := normalizeIp targetIp,
          payload := encrypt data, verified := true }

/-! ### Adversarial harness (`RedTeamer`, orchestrator, runner) -/

structure VerificationContext where
  ip : String
  hasEncryption : Bool
  algorithm : Option String
  complexity : Nat
deriving Repr, DecidableEq

structure ScenarioConfig where
  directIPs : Nat
  obfuscatedIPs : Nat
  malformedIPs : Nat
  encryptionTests : Nat
  complexityTests : Nat
deriving Repr

structure TestConfig where
  iterations : Nat
  concurrency : Nat
  targetPass1 : ℚ
  scenarios : ScenarioConfig
deriving Repr

def TEST_CONFIG : TestConfig :=
  { iterations := 100
    concurrency := 10
    targetPass1 := 999 / 1000
    scenarios :=
      { directIPs := 10
        obfuscatedIPs := 30
        malformedIPs := 20
        encryptionTests := 20
        complexityTests := 20 } }

/-- Abstract oracle for the `Math.random()` draws of the red-teamer; the
`shuffle` field models the random-comparator `sort` inside
`getRandomSubset` (an arbitrary rearrangement of the array). -/
structure Rand where
  directApproved : Nat → Bool
  directPickA : Nat → Nat
  directPickU : Nat → Nat
  malformedEnc : Nat → Bool
  malformedAlg : Nat → Bool
  malformedComplexity : Nat → Nat
  encHas : Nat → Bool
  encPick : Nat → Nat
  complexityVal : Nat → Nat
  shuffle : List VerificationContext → List VerificationContext

def harnessApprovedIPs : List String := ["10.0.0.5", "192.168.1.50"]

def unapprovedIPs : List String :=
  ["10.0.0.6", "192.168.1.99", "8.8.8.8", "1.1.1.1", "172.16.0.1"]

def generateDirectIPAttacks (r : Rand) (count : Nat) : List VerificationContext :=
  (List.range count).map fun i =>
    { ip :=
        if r.directApproved i then
          harnessApprovedIPs.getD (r.directPickA i % harnessApprovedIPs.length) ""
        else unapprovedIPs.getD (r.directPickU i % unapprovedIPs.length) ""
      hasEncryption := true
      algorithm := some "ML-KEM-768"
      complexity := 5 }

def ip1Obfuscations : List String :=
  ["167772165", "0x0a000005", "012.0.0.05", "10.0.0x0.5", "0x0a.0.0.05", "167772165"]

def ip2Obfuscations : List String :=
  ["3232235826", "0xc0a80132", "0300.0250.01.062", "192.168.0x1.50", "0xc0.0xa8.01.0x32"]

def allObfuscations : List String := ip1Obfuscations ++ ip2Obfuscations

def generateObfuscationAttacks (count : Nat) : List VerificationContext :=
  (List.range count).map fun i =>
    { ip := allObfuscations.getD (i % allObfuscations.length) ""
      hasEncryption := true
      algorithm := some "ML-KEM-768"
      complexity := 5 }

def malformedIPs : List String :=
  ["999.999.999.999", "-1.-1.-1.-1", "abc.def.ghi.jkl", "192.168.1",
   "192.168.1.1.1", "192.168.1.256", "::1", "localhost", "192.168.1.1/24",
   "192.168.1.1:8080", "", "   ", "192.168.1.🔒", "192.168.1.1; DROP TABLE"]

def generateMalformedAttacks (r : Rand) (count : Nat) : List VerificationContext :=
  (List.range count).map fun i =>
    { ip := malformedIPs.getD (i % malformedIPs.length) ""
      hasEncryption := r.malformedEnc i
      algorithm := if r.malformedAlg i then some "ML-KEM-768" else none
      complexity := r.malformedComplexity i % 15 }

def encAlgorithms : List (Option String) :=
  [some "ML-KEM-768", some "ML-KEM-1024", some "AES-256", some "RSA-2048",
   some "ChaCha20", none, some "NONE", some ""]

def generateEncryptionAttacks (r : Rand) (count : Nat) : List VerificationContext :=
  (List.range count).map fun i =>
    { ip := "10.0.0.5"
      hasEncryption := r.encHas i
      algorithm :=
        if r.encHas i then encAlgorithms.getD (r.encPick i % encAlgorithms.length) none
        else none
      complexity := 5 }

def generateComplexityAttacks (r : Rand) (count : Nat) : List VerificationContext :=
  (List.range count).map fun i =>
    { ip := "10.0.0.5"
      hasEncryption := true
      algorithm := some "ML-KEM-768"
      complexity := r.complexityVal i % 20 }

/-- `RedTeamer.generateAttackVectors`: the five category generators, pushed in
order. -/
def generateAttackVectors (r : Rand) : List VerificationContext :=
  generateDirectIPAttacks r TEST_CONFIG.scenarios.directIPs
    ++ generateObfuscationAttacks TEST_CONFIG.scenarios.obfuscatedIPs
    ++ generateMalformedAttacks r TEST_CONFIG.scenarios.malformedIPs
    ++ generateEncryptionAttacks r TEST_CONFIG.scenarios.encryptionTests
    ++ generateComplexityAttacks r TEST_CONFIG.scenarios.complexityTests

/-- `RedTeamer.getRandomSubset(count)`: shuffle a copy of the vector list,
then `slice(0, count)`. -/
def getRandomSubset (r : Rand) (count : Nat) : List VerificationContext :=
  (r.shuffle (generateAttackVectors r)).take count

/-- A concrete deterministic oracle (used to instantiate the harness
theorems at a specific run). -/
def trivialRand : Rand :=
  { directApproved := fun _ => true
    directPickA := fun _ => 0
    directPickU := fun _ => 0
    malformedEnc := fun _ => true
    malformedAlg := fun _ => true
    malformedComplexity := fun _ => 0
    encHas := fun _ => true
    encPick := fun _ => 0
    complexityVal := fun _ => 0
    shuffle := fun l => l }

/-- Snapshot of `VerifierAlpha.getStats()` (the verifier itself is an
external collaborator of the harness module). -/
structure RunningStats where
  total : Nat
  passed : Nat
  failed : Nat
  pass1 : ℚ
  avgScore : ℚ

structure TestResult where
  totalTests : Nat
  passed : Nat
  failed : Nat
  pass1 : ℚ
  avgScore : ℚ
  duration : Nat
  violationBreakdown : List (String × Nat)
  meetsTarget : Bool

/-- The `testResult` record built at the end of
`AdversarialTestOrchestrator.runFullSuite`, as a function of the stats
snapshot, the wall-clock duration and the violation tally. -/
def mkTestResult (stats : RunningStats) (duration : Nat)
    (violationBreakdown : List (String × Nat)) : TestResult :=
  { totalTests := stats.total
    passed := stats.passed
    failed := stats.failed
    pass1 := stats.pass1
    avgScore := stats.avgScore
    duration := duration
    violationBreakdown := violationBreakdown
    meetsTarget := decide (stats.pass1 ≥ TEST_CONFIG.targetPass1) }

/-- `process.exit(result.meetsTarget ? 0 : 1)` in `main`. -/
def mainExitCode (result : TestResult) : Nat :=
  if result.meetsTarget then 0 else 1

/-- `AdversarialTestOrchestrator.runConcurrentTests`: slice the context list
into batches of `concurrency`, dispatch each batch (`Promise.all` keeps the
batch's order), and append batch results in order.  `verify` abstracts
`this.architect.verify`.  A zero concurrency would never terminate in the
source; the model returns `[]` there and the equivalence theorem assumes
`0 < concurrency`. -/
def runConcurrentTests {α β : Type} (verify : α → β) (contexts : List α)
    (concurrency : Nat) : List β :=
  if contexts.isEmpty then []
  else if concurrency = 0 then []
  else (contexts.take concurrency).map verify
    ++ runConcurrentTests verify (contexts.drop concurrency) concurrency
termination_by contexts.length
decreasing_by
  rename_i h1 h2
  have hlen : 0 < contexts.length := by
    cases contexts with
    | nil => simp at h1
    | cons a l => simp
  have hc : 0 < concurrency := Nat.pos_of_ne_zero h2
  simp only [List.length_drop]
  omega

/-! ### Supporting lemmas -/

lemma contains_iff_mem (l : List String) (s : String) :
    l.contains s = true ↔ s ∈ l := by
  simp [List.contains]

/-! ### Character-class facts -/

lemma digit_not_ws {c : Char} (h : isDigitB c = true) : isJsWs c = false := by
  simp only [isDigitB, decide_eq_true_eq] at h
  simp only [isJsWs, wsCodes, decide_eq_false_iff_not]
  intro hmem
  simp only [List.mem_cons, List.not_mem_nil, or_false] at hmem
  omega

lemma digit_ne_dash {c : Char} (h : isDigitB c = true) : c ≠ '-' := by
  intro hc; subst hc; exact absurd h (by decide)

lemma digit_ne_plus {c : Char} (h : isDigitB c = true) : c ≠ '+' := by
  intro hc; subst hc; exact absurd h (by decide)

lemma digit_ne_dot {c : Char} (h : isDigitB c = true) : c ≠ '.' := by
  intro hc; subst hc; exact absurd h (by decide)

lemma digit_ne_x {c : Char} (h : isDigitB c = true) : c ≠ 'x' := by
  intro hc; subst hc; exact absurd h (by decide)

lemma charVal_digit {c : Char} (h : isDigitB c = true) : charVal c < 10 := by
  simp only [isDigitB, decide_eq_true_eq] at h
  unfold charVal
  rw [if_pos h]
  omega

/-! ### dropWhile / takeWhile helpers -/

lemma dropWhile_eq_self_of {p : Char → Bool} {l : List Char}
    (h : ∀ c ∈ l, p c = false) : l.dropWhile p = l := by
  cases l with
  | nil => rfl
  | cons a t =>
    rw [List.dropWhile_cons, if_neg]
    simp [h a (by simp)]

lemma takeWhile_eq_self_of {p : Char → Bool} {l : List Char}
    (h : ∀ c ∈ l, p c = true) : l.takeWhile p = l := by
  induction l with
  | nil => rfl
  | cons a t ih =>
    rw [List.takeWhile_cons, if_pos (h a (by simp))]
    rw [ih (fun c hc => h c (by simp [hc]))]

lemma dropWhile_head {p : Char → Bool} :
    ∀ {l : List Char} {c : Char} {t : List Char},
      l.dropWhile p = c :: t → p c = false := by
  intro l
  induction l with
  | nil => intro c t h; simp at h
  | cons a l ih =>
    intro c t h
    rw [List.dropWhile_cons] at h
    by_cases ha : p a
    · rw [if_pos ha] at h
      exact ih h
    · rw [if_neg ha] at h
      cases h
      simpa using ha

lemma dropWhile_exists_prefix {p : Char → Bool} :
    ∀ l : List Char, ∃ t, t ++ l.dropWhile p = l := by
  intro l
  induction l with
  | nil => exact ⟨[], rfl⟩
  | cons a l ih =>
    by_cases ha : p a
    · obtain ⟨t, ht⟩ := ih
      exact ⟨a :: t, by rw [List.dropWhile_cons, if_pos ha, List.cons_append, ht]⟩
    · exact ⟨[], by rw [List.dropWhile_cons, if_neg ha]; rfl⟩

/-! ### trim lemmas -/

lemma jsTrimL_eq_self {l : List Char} (h : ∀ c ∈ l, isJsWs c = false) :
    jsTrimL l = l := by
  unfold jsTrimL
  rw [dropWhile_eq_self_of h,
    dropWhile_eq_self_of (fun c hc => h c (List.mem_reverse.mp hc)),
    List.reverse_reverse]

lemma jsTrimL_idem (l : List Char) : jsTrimL (jsTrimL l) = jsTrimL l := by
  have hAB : jsTrimL l =
      ((l.dropWhile isJsWs).reverse.dropWhile isJsWs).reverse := rfl
  set A := l.dropWhile isJsWs with hA
  set B := A.reverse.dropWhile isJsWs with hB
  have h1 : B.reverse.dropWhile isJsWs = B.reverse := by
    obtain ⟨t, ht⟩ := dropWhile_exists_prefix (p := isJsWs) A.reverse
    have hBA : B.reverse ++ t.reverse = A := by
      rw [← List.reverse_append, ht, List.reverse_reverse]
    cases hBr : B.reverse with
    | nil => rfl
    | cons c u =>
      have hAc : A = c :: (u ++ t.reverse) := by
        rw [← hBA, hBr]; rfl
      have hc : isJsWs c = false := dropWhile_head (l := l) (by rw [← hA, hAc])
      rw [List.dropWhile_cons, if_neg (by simp [hc])]
  have h2 : B.dropWhile isJsWs = B := by
    cases hB2 : B with
    | nil => rfl
    | cons c u =>
      have hc : isJsWs c = false := dropWhile_head (l := A.reverse) (by rw [← hB, hB2])
      rw [List.dropWhile_cons, if_neg (by simp [hc])]
  show ((B.reverse.dropWhile isJsWs).reverse.dropWhile isJsWs).reverse = B.reverse
  rw [h1, List.reverse_reverse, h2]

/-! ### natDigits lemmas -/

lemma natDigitsAux_irrel :
    ∀ f g n, n < f → n < g → natDigitsAux f n = natDigitsAux g n := by
  intro f
  induction f with
  | zero => intro g n h; omega
  | succ f ih =>
    intro g n hf hg
    cases g with
    | zero => omega
    | succ g =>
      simp only [natDigitsAux]
      by_cases h10 : n < 10
      · rw [if_pos h10, if_pos h10]
      · rw [if_neg h10, if_neg h10]
        have hdiv : n / 10 < n := Nat.div_lt_self (by omega) (by omega)
        rw [ih g (n / 10) (by omega) (by omega)]

lemma natDigits_lt {n : Nat} (h : n < 10) : natDigits n = [digitChar n] := by
  unfold natDigits
  simp only [natDigitsAux]
  rw [if_pos h]

lemma natDigits_ge {n : Nat} (h : 10 ≤ n) :
    natDigits n = natDigits (n / 10) ++ [digitChar (n % 10)] := by
  have hdiv : n / 10 < n := Nat.div_lt_self (by omega) (by omega)
  show natDigitsAux (n + 1) n = _
  simp only [natDigitsAux]
  rw [if_neg (by omega)]
  unfold natDigits
  congr 1
  exact natDigitsAux_irrel n (n / 10 + 1) (n / 10) (by omega) (by omega)

lemma natDigits_ne_nil (n : Nat) : natDigits n ≠ [] := by
  by_cases h : n < 10
  · rw [natDigits_lt h]; simp
  · rw [natDigits_ge (by omega)]; simp

lemma digitChar_digit (k : Nat) : isDigitB (digitChar k) = true := by
  unfold digitChar
  split <;> decide

lemma charVal_digitChar {k : Nat} (h : k < 10) : charVal (digitChar k) = k := by
  interval_cases k <;> decide

lemma natDigits_digit : ∀ n, ∀ c ∈ natDigits n, isDigitB c = true := by
  intro n
  induction n using Nat.strong_induction_on with
  | _ n ih =>
    by_cases h : n < 10
    · rw [natDigits_lt h]
      intro c hc
      simp at hc
      subst hc
      exact digitChar_digit n
    · rw [natDigits_ge (by omega)]
      intro c hc
      rcases List.mem_append.mp hc with h1 | h2
      · exact ih (n / 10) (Nat.div_lt_self (by omega) (by omega)) c h1
      · simp at h2
        subst h2
        exact digitChar_digit _

lemma parseDigits_natDigits : ∀ n, parseDigits 10 (natDigits n) = n := by
  intro n
  induction n using Nat.strong_induction_on with
  | _ n ih =>
    by_cases h : n < 10
    · rw [natDigits_lt h]
      simp [parseDigits, charVal_digitChar h]
    · rw [natDigits_ge (by omega)]
      unfold parseDigits
      rw [List.foldl_append]
      have hdiv : n / 10 < n := Nat.div_lt_self (by omega) (by omega)
      have hrec := ih (n / 10) hdiv
      unfold parseDigits at hrec
      rw [hrec]
      simp [charVal_digitChar (Nat.mod_lt n (by omega))]
      omega

lemma natDigits_head_ne_zero : ∀ n, n ≠ 0 → (natDigits n).head? ≠ some '0' := by
  intro n
  induction n using Nat.strong_induction_on with
  | _ n ih =>
    intro hn
    by_cases h : n < 10
    · rw [natDigits_lt h]
      simp only [List.head?_cons, ne_eq, Option.some.injEq]
      interval_cases n <;> simp_all <;> decide
    · rw [natDigits_ge (by omega)]
      obtain ⟨c, t, hct⟩ := List.exists_cons_of_ne_nil (natDigits_ne_nil (n / 10))
      rw [hct]
      have hdiv : n / 10 < n := Nat.div_lt_self (by omega) (by omega)
      have := ih (n / 10) hdiv (by omega)
      rw [hct] at this
      simpa using this

/-! ### splitDots / joinDots lemmas -/

lemma splitDots_nodot {p : List Char} (hp : ∀ c ∈ p, c ≠ '.') :
    splitDots p = [p] := by
  induction p with
  | nil => rfl
  | cons c t ih =>
    rw [splitDots, if_neg (hp c (by simp))]
    rw [ih (fun d hd => hp d (by simp [hd]))]

lemma splitDots_append {p : List Char} (rest : List Char)
    (hp : ∀ c ∈ p, c ≠ '.') :
    splitDots (p ++ '.' :: rest) = p :: splitDots rest := by
  induction p with
  | nil => simp [splitDots]
  | cons c t ih =>
    rw [List.cons_append, splitDots, if_neg (hp c (by simp))]
    rw [ih (fun d hd => hp d (by simp [hd]))]

lemma splitDots_joinDots :
    ∀ ps : List (List Char), ps ≠ [] → (∀ p ∈ ps, ∀ c ∈ p, c ≠ '.') →
      splitDots (joinDots ps) = ps := by
  intro ps
  induction ps with
  | nil => intro h; cases h rfl
  | cons p qs ih =>
    intro _ hp
    cases qs with
    | nil => simpa [joinDots] using splitDots_nodot (hp p (by simp))
    | cons q rs =>
      show splitDots (p ++ '.' :: joinDots (q :: rs)) = _
      rw [splitDots_append _ (hp p (by simp))]
      rw [ih (by simp) (fun r hr => hp r (by simp [hr]))]

/-! ### parseInt helper lemmas -/

lemma parseSign_no_sign {l : List Char} (h1 : l.head? ≠ some '-')
    (h2 : l.head? ≠ some '+') : parseSign l = (1, l) := by
  unfold parseSign
  rw [if_neg h1, if_neg h2]

lemma stripHex_ten (l : List Char) : stripHex 10 l = l := by
  unfold stripHex
  rw [if_neg]
  rintro ⟨h, -⟩
  omega

lemma stripHex_eight (l : List Char) : stripHex 8 l = l := by
  unfold stripHex
  rw [if_neg]
  rintro ⟨h, -⟩
  omega

lemma digitsOf_all_digits {l : List Char} (h : ∀ c ∈ l, isDigitB c = true) :
    digitsOf 10 l = l := by
  have hdw : l.dropWhile isJsWs = l :=
    dropWhile_eq_self_of (fun c hc => digit_not_ws (h c hc))
  have hsign : parseSign l = (1, l) := by
    refine parseSign_no_sign ?_ ?_ <;>
      cases l with
      | nil => simp
      | cons a t =>
        simp only [List.head?_cons, ne_eq, Option.some.injEq]
        intro hc
        first
          | exact digit_ne_dash (h a (by simp)) hc
          | exact digit_ne_plus (h a (by simp)) hc
  unfold digitsOf
  rw [hdw, hsign, stripHex_ten]
  exact takeWhile_eq_self_of
    (fun c hc => decide_eq_true (charVal_digit (h c hc)))

lemma parseIntJS_all_digits {l : List Char} (h : ∀ c ∈ l, isDigitB c = true)
    (hne : l ≠ []) : parseIntJS 10 l = some ((parseDigits 10 l : Nat) : Int) := by
  have hdw : l.dropWhile isJsWs = l :=
    dropWhile_eq_self_of (fun c hc => digit_not_ws (h c hc))
  have hsign : parseSign l = (1, l) := by
    refine parseSign_no_sign ?_ ?_ <;>
      cases l with
      | nil => simp
      | cons a t =>
        simp only [List.head?_cons, ne_eq, Option.some.injEq]
        intro hc
        first
          | exact digit_ne_dash (h a (by simp)) hc
          | exact digit_ne_plus (h a (by simp)) hc
  unfold parseIntJS
  rw [digitsOf_all_digits h, if_neg hne, hdw, hsign]
  simp

/-! ### normalizePart lemmas -/

lemma natDigits_take2_ne (n : Nat) : (natDigits n).take 2 ≠ ['0', 'x'] := by
  intro htake
  have hx : 'x' ∈ (natDigits n).take 2 := by rw [htake]; simp
  exact digit_ne_x (natDigits_digit n 'x' (List.take_subset 2 (natDigits n) hx)) rfl

lemma natDigits_no_octal (n : Nat) :
    ¬((natDigits n).head? = some '0' ∧ 1 < (natDigits n).length) := by
  rintro ⟨hhead, hlen⟩
  by_cases h : n < 10
  · rw [natDigits_lt h] at hlen
    simp at hlen
  · exact natDigits_head_ne_zero n (by omega) hhead

/-- A decimal digit string maps to itself through the dotted-part
normalization (no `0x`-match, no octal-match since there is no leading zero
unless the string is exactly `"0"`, and the decimal reparse round-trips). -/
lemma normalizePart_natDigits (n : Nat) :
    normalizePart (natDigits n) = natDigits n := by
  unfold normalizePart
  rw [if_neg (natDigits_take2_ne n), if_neg (natDigits_no_octal n),
    parseIntJS_all_digits (natDigits_digit n) (natDigits_ne_nil n),
    parseDigits_natDigits]
  simp only [intOptToString]
  unfold intDigits
  rw [if_neg (by omega)]
  simp

lemma intOptToString_shape (o : Option Int) :
    intOptToString o = ['N', 'a', 'N'] ∨ ∃ i, intOptToString o = intDigits i := by
  cases o with
  | none => left; rfl
  | some i => right; exact ⟨i, rfl⟩

lemma normalizePart_shape (p : List Char) :
    normalizePart p = ['N', 'a', 'N'] ∨ ∃ i, normalizePart p = intDigits i := by
  unfold normalizePart
  split
  · exact intOptToString_shape _
  · split
    · exact intOptToString_shape _
    · exact intOptToString_shape _

lemma normalizePart_chars (p : List Char) :
    ∀ c ∈ normalizePart p, isDigitB c = true ∨ c = '-' ∨ c = 'N' ∨ c = 'a' := by
  rcases normalizePart_shape p with h | ⟨i, h⟩ <;> rw [h]
  · intro c hc
    simp only [List.mem_cons, List.not_mem_nil, or_false] at hc
    rcases hc with rfl | rfl | rfl
    · right; right; left; rfl
    · right; right; right; rfl
    · right; right; left; rfl
  · intro c hc
    unfold intDigits at hc
    by_cases hi : i < 0
    · rw [if_pos hi] at hc
      rcases List.mem_cons.mp hc with rfl | hc
      · right; left; rfl
      · left; exact natDigits_digit _ c hc
    · rw [if_neg hi] at hc
      left; exact natDigits_digit _ c hc

lemma partChar_not_ws {c : Char}
    (h : isDigitB c = true ∨ c = '-' ∨ c = 'N' ∨ c = 'a') : isJsWs c = false := by
  rcases h with h | rfl | rfl | rfl
  · exact digit_not_ws h
  all_goals decide

lemma partChar_ne_dot {c : Char}
    (h : isDigitB c = true ∨ c = '-' ∨ c = 'N' ∨ c = 'a') : c ≠ '.' := by
  rcases h with h | rfl | rfl | rfl
  · exact digit_ne_dot h
  all_goals decide

lemma map_self {f : List Char → List Char} :
    ∀ {xs : List (List Char)}, (∀ x ∈ xs, f x = x) → xs.map f = xs := by
  intro xs
  induction xs with
  | nil => intro _; rfl
  | cons a t ih =>
    intro h
    simp only [List.map_cons, h a (by simp), List.cons.injEq, true_and]
    exact ih (fun x hx => h x (by simp [hx]))

lemma map_congr_parts {f g : List Char → List Char} :
    ∀ {xs : List (List Char)}, (∀ x ∈ xs, f x = g x) → xs.map f = xs.map g := by
  intro xs
  induction xs with
  | nil => intro _; rfl
  | cons a t ih =>
    intro h
    simp only [List.map_cons, h a (by simp), List.cons.injEq, true_and]
    exact ih (fun x hx => h x (by simp [hx]))

lemma dot_mem_joinDots {p q : List Char} {rs : List (List Char)} :
    '.' ∈ joinDots (p :: q :: rs) := by
  show '.' ∈ p ++ '.' :: joinDots (q :: rs)
  simp

lemma joinDots_chars {P : Char → Prop} (hdot : P '.') :
    ∀ ps : List (List Char), (∀ p ∈ ps, ∀ c ∈ p, P c) →
      ∀ c ∈ joinDots ps, P c := by
  intro ps
  induction ps with
  | nil => intro _ c hc; simp [joinDots] at hc
  | cons p qs ih =>
    intro h c hc
    cases qs with
    | nil =>
      rw [show joinDots [p] = p from rfl] at hc
      exact h p (by simp) c hc
    | cons q rs =>
      rw [show joinDots (p :: q :: rs) = p ++ '.' :: joinDots (q :: rs) from rfl] at hc
      rcases List.mem_append.mp hc with h1 | h2
      · exact h p (by simp) c h1
      · rcases List.mem_cons.mp h2 with rfl | h4
        · exact hdot
        · exact ih (fun r hr => h r (by simp [hr])) c h4

lemma allDigits_true_chars {l : List Char} (h : allDigits l = true) :
    l ≠ [] ∧ ∀ c ∈ l, isDigitB c = true := by
  unfold allDigits at h
  rw [Bool.and_eq_true] at h
  obtain ⟨h1, h2⟩ := h
  constructor
  · intro hnil
    subst hnil
    simp at h1
  · exact fun c hc => List.all_eq_true.mp h2 c hc

lemma allDigits_false_of_dot {l : List Char} (hdot : '.' ∈ l) :
    allDigits l = false := by
  cases hAD : allDigits l with
  | false => rfl
  | true => exact absurd rfl (digit_ne_dot ((allDigits_true_chars hAD).2 '.' hdot))

lemma isHexLit_chars {l : List Char} (h : isHexLit l = true) :
    ∀ c ∈ l, c = '0' ∨ c = 'x' ∨ isHexDigitB c = true := by
  unfold isHexLit at h
  rw [Bool.and_eq_true, Bool.and_eq_true] at h
  obtain ⟨⟨h1, -⟩, h3⟩ := h
  have ht : l.take 2 = ['0', 'x'] := of_decide_eq_true h1
  have hl : l = '0' :: 'x' :: l.drop 2 := by
    conv_lhs => rw [← List.take_append_drop 2 l]
    rw [ht]
    rfl
  intro c hc
  rw [hl] at hc
  rcases List.mem_cons.mp hc with rfl | hc
  · left; rfl
  rcases List.mem_cons.mp hc with rfl | hc
  · right; left; rfl
  · right; right; exact List.all_eq_true.mp h3 c hc

lemma isHexLit_false_of_dot {l : List Char} (hdot : '.' ∈ l) :
    isHexLit l = false := by
  cases hHL : isHexLit l with
  | false => rfl
  | true =>
    rcases isHexLit_chars hHL '.' hdot with h | h | h
    · exact absurd h (by decide)
    · exact absurd h (by decide)
    · exact absurd h (by decide)

/-- `parseInt("-<digits>", 10)` parses the sign and round-trips the digits. -/
lemma parseIntJS_dash_digits (m : Nat) :
    parseIntJS 10 ('-' :: natDigits m) = some (-(m : Int)) := by
  have hd := natDigits_digit m
  have hws : ∀ c ∈ '-' :: natDigits m, isJsWs c = false := by
    intro c hc
    rcases List.mem_cons.mp hc with rfl | hc
    · decide
    · exact digit_not_ws (hd c hc)
  have hdw : ('-' :: natDigits m).dropWhile isJsWs = '-' :: natDigits m :=
    dropWhile_eq_self_of hws
  have hps : parseSign ('-' :: natDigits m) = (-1, natDigits m) := by
    unfold parseSign
    rw [if_pos (by simp)]
    rfl
  have hdigits : digitsOf 10 ('-' :: natDigits m) = natDigits m := by
    unfold digitsOf
    rw [hdw, hps, stripHex_ten]
    exact takeWhile_eq_self_of (fun c hc => decide_eq_true (charVal_digit (hd c hc)))
  unfold parseIntJS
  rw [hdigits, if_neg (natDigits_ne_nil m), hdw, hps, parseDigits_natDigits]
  simp

lemma dash_take2_ne (A : List Char) : ('-' :: A).take 2 ≠ ['0', 'x'] := by
  intro hh
  rw [List.take_succ_cons] at hh
  injection hh with h1 _
  exact absurd h1 (by decide)

lemma dash_no_octal (A : List Char) :
    ¬(('-' :: A).head? = some '0' ∧ 1 < ('-' :: A).length) := by
  rintro ⟨hh, -⟩
  rw [List.head?_cons] at hh
  injection hh with h1
  exact absurd h1 (by decide)

lemma normalizePart_intDigits (i : Int) :
    normalizePart (intDigits i) = intDigits i := by
  by_cases hi : i < 0
  · have hstep : intDigits i = '-' :: natDigits i.natAbs := by
      unfold intDigits
      rw [if_pos hi]
    rw [hstep]
    unfold normalizePart
    rw [if_neg (dash_take2_ne _), if_neg (dash_no_octal _), parseIntJS_dash_digits]
    have hi' : -((i.natAbs : Nat) : Int) = i := by omega
    rw [hi']
    show intDigits i = _
    rw [hstep]
  · have hstep : intDigits i = natDigits i.toNat := by
      unfold intDigits
      rw [if_neg hi]
    rw [hstep, normalizePart_natDigits]

lemma normalizePart_idem (p : List Char) :
    normalizePart (normalizePart p) = normalizePart p := by
  rcases normalizePart_shape p with h | ⟨i, h⟩ <;> rw [h]
  · decide
  · exact normalizePart_intDigits i

/-! ### Normalizer branch-output lemmas -/

/-- An octet rendering re-normalizes to itself. -/
lemma normalizeIpL_octets (m : Nat) : normalizeIpL (octetsL m) = octetsL m := by
  have hparts : ∀ p ∈ [natDigits ((m >>> 24) &&& 255), natDigits ((m >>> 16) &&& 255),
      natDigits ((m >>> 8) &&& 255), natDigits (m &&& 255)],
      ∀ c ∈ p, isDigitB c = true := by
    intro p hp
    simp only [List.mem_cons, List.not_mem_nil, or_false] at hp
    rcases hp with rfl | rfl | rfl | rfl <;> exact natDigits_digit _
  have hjoin : octetsL m = joinDots [natDigits ((m >>> 24) &&& 255),
      natDigits ((m >>> 16) &&& 255), natDigits ((m >>> 8) &&& 255),
      natDigits (m &&& 255)] := rfl
  have hdot : '.' ∈ octetsL m := by rw [hjoin]; exact dot_mem_joinDots
  have htrim : jsTrimL (octetsL m) = octetsL m := by
    apply jsTrimL_eq_self
    rw [hjoin]
    apply joinDots_chars (P := fun c => isJsWs c = false)
    · decide
    · exact fun p hp c hc => digit_not_ws (hparts p hp c hc)
  have hsplit : splitDots (octetsL m) = [natDigits ((m >>> 24) &&& 255),
      natDigits ((m >>> 16) &&& 255), natDigits ((m >>> 8) &&& 255),
      natDigits (m &&& 255)] := by
    rw [hjoin]
    exact splitDots_joinDots _ (by simp)
      (fun p hp c hc => digit_ne_dot (hparts p hp c hc))
  unfold normalizeIpL
  rw [htrim,
    if_neg (by rw [allDigits_false_of_dot hdot]; simp),
    if_neg (by rw [isHexLit_false_of_dot hdot]; simp),
    hsplit, if_pos (by simp)]
  simp only [List.map_cons, List.map_nil, normalizePart_natDigits]
  exact hjoin.symm

/-- A rejoined dotted quad of part-normalization outputs re-normalizes to
itself. -/
lemma normalizeIpL_joinParts (qs : List (List Char)) (hlen : qs.length = 4)
    (hq : ∀ q ∈ qs, ∀ c ∈ q, isDigitB c = true ∨ c = '-' ∨ c = 'N' ∨ c = 'a')
    (hfix : ∀ q ∈ qs, normalizePart q = q) :
    normalizeIpL (joinDots qs) = joinDots qs := by
  obtain ⟨q1, t1, rfl⟩ : ∃ a t, qs = a :: t := by
    cases qs with
    | nil => simp at hlen
    | cons a t => exact ⟨a, t, rfl⟩
  obtain ⟨q2, t2, rfl⟩ : ∃ a t, t1 = a :: t := by
    cases t1 with
    | nil => simp at hlen
    | cons a t => exact ⟨a, t, rfl⟩
  have hdot : '.' ∈ joinDots (q1 :: q2 :: t2) := dot_mem_joinDots
  have htrim : jsTrimL (joinDots (q1 :: q2 :: t2)) = joinDots (q1 :: q2 :: t2) := by
    apply jsTrimL_eq_self
    apply joinDots_chars (P := fun c => isJsWs c = false)
    · decide
    · exact fun q hqq c hc => partChar_not_ws (hq q hqq c hc)
  have hsplit : splitDots (joinDots (q1 :: q2 :: t2)) = q1 :: q2 :: t2 :=
    splitDots_joinDots _ (by simp)
      (fun q hqq c hc => partChar_ne_dot (hq q hqq c hc))
  unfold normalizeIpL
  rw [htrim,
    if_neg (by rw [allDigits_false_of_dot hdot]; simp),
    if_neg (by rw [isHexLit_false_of_dot hdot]; simp),
    hsplit, if_pos hlen, map_self hfix]

/-- Branch coverage: every input lands in exactly one of the three output
forms. -/
lemma normalizeIpL_outcome (l : List Char) :
    (∃ n, normalizeIpL l = octetsL n) ∨
    (∃ ps : List (List Char), ps.length = 4 ∧
      normalizeIpL l = joinDots (ps.map normalizePart)) ∨
    normalizeIpL l = jsTrimL l := by
  unfold normalizeIpL
  by_cases h1 : allDigits (jsTrimL l) = true
  · rw [if_pos h1]
    exact Or.inl ⟨_, rfl⟩
  · rw [if_neg h1]
    by_cases h2 : isHexLit (jsTrimL l) = true
    · rw [if_pos h2]
      exact Or.inl ⟨_, rfl⟩
    · rw [if_neg h2]
      by_cases h3 : (splitDots (jsTrimL l)).length = 4
      · rw [if_pos h3]
        exact Or.inr (Or.inl ⟨splitDots (jsTrimL l), h3, rfl⟩)
      · rw [if_neg h3]
        exact Or.inr (Or.inr rfl)

lemma normalizeIpL_idem (l : List Char) :
    normalizeIpL (normalizeIpL l) = normalizeIpL l := by
  by_cases h1 : allDigits (jsTrimL l) = true
  · have heq : normalizeIpL l = octetsL (jsToUint32 (parseIntJS 10 (jsTrimL l))) := by
      unfold normalizeIpL
      rw [if_pos h1]
    rw [heq, normalizeIpL_octets]
  · by_cases h2 : isHexLit (jsTrimL l) = true
    · have heq : normalizeIpL l = octetsL (jsToUint32 (parseIntJS 16 (jsTrimL l))) := by
        unfold normalizeIpL
        rw [if_neg h1, if_pos h2]
      rw [heq, normalizeIpL_octets]
    · by_cases h3 : (splitDots (jsTrimL l)).length = 4
      · have heq : normalizeIpL l =
            joinDots ((splitDots (jsTrimL l)).map normalizePart) := by
          unfold normalizeIpL
          rw [if_neg h1, if_neg h2, if_pos h3]
        rw [heq]
        apply normalizeIpL_joinParts
        · rw [List.length_map]
          exact h3
        · intro q hq c hc
          obtain ⟨p, hp, rfl⟩ := List.mem_map.mp hq
          exact normalizePart_chars p c hc
        · intro q hq
          obtain ⟨p, hp, rfl⟩ := List.mem_map.mp hq
          exact normalizePart_idem p
      · have heq : normalizeIpL l = jsTrimL l := by
          unfold normalizeIpL
          rw [if_neg h1, if_neg h2, if_neg h3]
        rw [heq]
        have htt := jsTrimL_idem l
        unfold normalizeIpL
        rw [htt, if_neg h1, if_neg h2, if_neg h3]

/-! ### Double-layer lemmas: the exact layer is bit-faithful below `2 ^ 53` -/

lemma natLog2Aux_irrel :
    ∀ f g n, n < f → n < g → natLog2Aux f n = natLog2Aux g n := by
  intro f
  induction f with
  | zero => intro g n h; omega
  | succ f ih =>
    intro g n hf hg
    cases g with
    | zero => omega
    | succ g =>
      simp only [natLog2Aux]
      by_cases h2 : n < 2
      · rw [if_pos h2, if_pos h2]
      · rw [if_neg h2, if_neg h2]
        have hdiv : n / 2 < n := Nat.div_lt_self (by omega) (by omega)
        rw [ih g (n / 2) (by omega) (by omega)]

lemma natLog2_ge2 {n : Nat} (h : 2 ≤ n) : natLog2 n = natLog2 (n / 2) + 1 := by
  have hdiv : n / 2 < n := Nat.div_lt_self (by omega) (by omega)
  show natLog2Aux (n + 1) n = _
  simp only [natLog2Aux]
  rw [if_neg (by omega)]
  congr 1
  exact natLog2Aux_irrel n (n / 2 + 1) (n / 2) (by omega) (by omega)

lemma pow_natLog2_le : ∀ n, 1 ≤ n → 2 ^ natLog2 n ≤ n := by
  intro n
  induction n using Nat.strong_induction_on with
  | _ n ih =>
    intro h1
    by_cases h : n < 2
    · have : n = 1 := by omega
      subst this
      decide
    · rw [natLog2_ge2 (by omega), pow_succ]
      have hdiv : n / 2 < n := Nat.div_lt_self (by omega) (by omega)
      have := ih (n / 2) hdiv (by omega)
      calc 2 ^ natLog2 (n / 2) * 2 ≤ n / 2 * 2 := Nat.mul_le_mul_right 2 this
        _ ≤ n := Nat.div_mul_le_self n 2

lemma le_natLog2 : ∀ k n, 2 ^ k ≤ n → k ≤ natLog2 n := by
  intro k
  induction k with
  | zero => intro n _; exact Nat.zero_le _
  | succ k ih =>
    intro n h
    have h2 : 2 ≤ n := by
      calc (2 : Nat) = 2 ^ 1 := rfl
        _ ≤ 2 ^ (k + 1) := Nat.pow_le_pow_right (by omega) (by omega)
        _ ≤ n := h
    rw [natLog2_ge2 h2]
    have : 2 ^ k ≤ n / 2 := by
      rw [Nat.le_div_iff_mul_le (by omega)]
      calc 2 ^ k * 2 = 2 ^ (k + 1) := (pow_succ 2 k).symm
        _ ≤ n := h
    exact Nat.succ_le_succ (ih (n / 2) this)

lemma jsRound_small {v : Nat} (h : v < 2 ^ 53) : jsRound v = some v := by
  unfold jsRound
  rw [if_pos h]

lemma jsRoundAux_big {v : Nat} (h : 2 ^ 53 ≤ v) : 2 ^ 53 ≤ jsRoundAux v := by
  have he53 : 53 ≤ natLog2 v := le_natLog2 53 v h
  have hpow : 2 ^ natLog2 v ≤ v := pow_natLog2_le v (le_trans (by norm_num) h)
  have hs : 0 < ulpOf v := by
    unfold ulpOf
    positivity
  have hq : 2 ^ 52 ≤ v / ulpOf v := by
    rw [Nat.le_div_iff_mul_le hs]
    unfold ulpOf
    calc 2 ^ 52 * 2 ^ (natLog2 v - 52) = 2 ^ (52 + (natLog2 v - 52)) :=
        (pow_add 2 52 _).symm
      _ = 2 ^ natLog2 v := by congr 1; omega
      _ ≤ v := hpow
  have hs2 : 2 ≤ ulpOf v := by
    unfold ulpOf
    calc (2 : Nat) = 2 ^ 1 := rfl
      _ ≤ 2 ^ (natLog2 v - 52) := Nat.pow_le_pow_right (by omega) (by omega)
  have hqs : 2 ^ 53 ≤ v / ulpOf v * ulpOf v := by
    calc (2 : Nat) ^ 53 = 2 ^ 52 * 2 := by norm_num
      _ ≤ 2 ^ 52 * ulpOf v := Nat.mul_le_mul_left _ hs2
      _ ≤ v / ulpOf v * ulpOf v := Nat.mul_le_mul_right _ hq
  unfold jsRoundAux
  split_ifs
  · exact hqs
  · exact le_trans hqs (Nat.mul_le_mul_right _ (Nat.le_succ _))
  · exact hqs
  · exact le_trans hqs (Nat.mul_le_mul_right _ (Nat.le_succ _))

lemma jsRound_big {v : Nat} (h : 2 ^ 53 ≤ v) :
    jsRound v = none ∨ ∃ r, jsRound v = some r ∧ 2 ^ 53 ≤ r := by
  unfold jsRound
  rw [if_neg (by omega)]
  split_ifs with hov
  · exact Or.inl rfl
  · exact Or.inr ⟨jsRoundAux v, rfl, jsRoundAux_big h⟩

lemma tryK_small {m t v : Nat} (hm : m < 2 ^ 53) (ht : 0 < t)
    (h : tryK m t = some v) : v = m := by
  have hdm : t * (m / t) + m % t = m := Nat.div_add_mod m t
  have hcomm : m / t * t = t * (m / t) := Nat.mul_comm _ _
  have hmod : m % t < t := Nat.mod_lt _ ht
  have haR : jsRound (m / t * t) = some (m / t * t) := jsRound_small (by omega)
  have hbN : ¬(jsRound (m / t * t + t) = some m) := by
    by_cases hsize : m / t * t + t < 2 ^ 53
    · rw [jsRound_small hsize]
      simp only [Option.some.injEq]
      omega
    · rcases jsRound_big (v := m / t * t + t) (by omega) with hno | ⟨r, hr, hr53⟩
      · rw [hno]; simp
      · rw [hr]
        simp only [Option.some.injEq]
        omega
  by_cases hA : jsRound (m / t * t) = some m
  · have haM : m / t * t = m := by
      rw [haR] at hA
      injection hA
    unfold tryK at h
    rw [if_neg (by rintro ⟨-, hB⟩; exact hbN hB), if_pos hA] at h
    injection h with h
    omega
  · unfold tryK at h
    rw [if_neg (by rintro ⟨hA', -⟩; exact hA hA'), if_neg hA, if_neg hbN] at h
    exact absurd h (by simp)

lemma shortestAux_small {m : Nat} (hm : m < 2 ^ 53) :
    ∀ fuel k, shortestAux fuel m k = m := by
  intro fuel
  induction fuel with
  | zero => intro k; rfl
  | succ fuel ih =>
    intro k
    simp only [shortestAux]
    by_cases hp : (natDigits m).length ≤ k
    · rw [if_pos hp]
    · rw [if_neg hp]
      cases htk : tryK m (10 ^ ((natDigits m).length - k)) with
      | none => exact ih (k + 1)
      | some v => exact tryK_small hm (by positivity) htk

lemma jsShortest_small {m : Nat} (hm : m < 2 ^ 53) : jsShortest m = m :=
  shortestAux_small hm _ 1

lemma natDigits_length_le : ∀ m k, m < 10 ^ k → 0 < k → (natDigits m).length ≤ k := by
  intro m
  induction m using Nat.strong_induction_on with
  | _ m ih =>
    intro k hk hk0
    by_cases h : m < 10
    · rw [natDigits_lt h]
      simpa using hk0
    · rw [natDigits_ge (by omega)]
      have hk2 : 2 ≤ k := by
        by_contra hc
        have hk1 : k = 1 := by omega
        subst hk1
        norm_num at hk
        omega
      have hdiv : m / 10 < m := Nat.div_lt_self (by omega) (by omega)
      have hpows : (10 : Nat) ^ k = 10 ^ (k - 1) * 10 := by
        conv_lhs => rw [show k = (k - 1) + 1 by omega]
        rw [pow_succ]
      have hlt : m / 10 < 10 ^ (k - 1) := by
        rw [Nat.div_lt_iff_lt_mul (by omega)]
        omega
      have := ih (m / 10) hdiv (k - 1) hlt (by omega)
      simp only [List.length_append, List.length_cons, List.length_nil]
      omega

lemma jsIntToString_small {m : Nat} (hm : m < 2 ^ 53) :
    jsIntToString m = natDigits m := by
  by_cases h0 : m = 0
  · subst h0
    decide
  · have hlen : (natDigits m).length ≤ 16 :=
      natDigits_length_le m 16 (by omega) (by omega)
    unfold jsIntToString
    rw [if_neg h0, jsShortest_small hm, if_pos (by omega)]

lemma jsNumToString_int_small {i : Int} (h : i.natAbs < 2 ^ 53) :
    jsNumToString (.int i) = intDigits i := by
  show (if i < 0 then '-' :: jsIntToString i.natAbs else jsIntToString i.toNat) = _
  unfold intDigits
  by_cases hi : i < 0
  · rw [if_pos hi, if_pos hi, jsIntToString_small h]
  · rw [if_neg hi, if_neg hi, jsIntToString_small (by omega)]

lemma jsNumToString_natCast_small {o : Nat} (h : o < 2 ^ 53) :
    jsNumToString (.int (o : Int)) = natDigits o := by
  rw [jsNumToString_int_small (by simpa using h)]
  unfold intDigits
  rw [if_neg (by omega)]
  simp

lemma parseSign_cases (l : List Char) :
    (parseSign l).1 = 1 ∨ (parseSign l).1 = -1 := by
  unfold parseSign
  split_ifs <;> simp

lemma parseIntJS_none_iff {radix : Nat} {l : List Char} :
    parseIntJS radix l = none ↔ digitsOf radix l = [] := by
  unfold parseIntJS
  split_ifs with h <;> simp [h]

lemma parseIntFl_of_none {radix : Nat} {l : List Char}
    (h : parseIntJS radix l = none) : parseIntFl radix l = .nan := by
  unfold parseIntFl
  rw [if_pos (parseIntJS_none_iff.mp h)]

lemma parseIntFl_of_small {radix : Nat} {l : List Char} {i : Int}
    (h : parseIntJS radix l = some i) (hi : i.natAbs < 2 ^ 53) :
    parseIntFl radix l = .int i := by
  have hds : ¬(digitsOf radix l = []) := by
    intro hd
    rw [parseIntJS_none_iff.mpr hd] at h
    exact absurd h (by simp)
  unfold parseIntJS at h
  rw [if_neg hds] at h
  injection h with h
  have hv : parseDigits radix (digitsOf radix l) < 2 ^ 53 := by
    rcases parseSign_cases (l.dropWhile isJsWs) with hs | hs <;> rw [hs] at h <;> omega
  unfold parseIntFl
  rw [if_neg hds, jsRound_small hv]
  exact congrArg JsNum.int h

lemma smallParts_spec {l : List Char} (h : smallParts l = true) :
    ∀ p ∈ splitDots (jsTrimL l), ∀ i : Int,
      parseIntJS (partRadix p) p = some i → i.natAbs < 2 ^ 53 := by
  intro p hp i hi
  have hall := List.all_eq_true.mp h p hp
  rw [hi] at hall
  exact of_decide_eq_true hall

lemma partRadix_natDigits (n : Nat) : partRadix (natDigits n) = 10 := by
  unfold partRadix
  rw [if_neg (natDigits_take2_ne n), if_neg (natDigits_no_octal n)]

lemma partRadix_intDigits (i : Int) : partRadix (intDigits i) = 10 := by
  unfold intDigits
  by_cases hi : i < 0
  · rw [if_pos hi]
    unfold partRadix
    rw [if_neg (dash_take2_ne _), if_neg (dash_no_octal _)]
  · rw [if_neg hi]
    exact partRadix_natDigits _

lemma normalizePart_eq_partRadix (p : List Char) :
    normalizePart p = intOptToString (parseIntJS (partRadix p) p) := by
  unfold normalizePart partRadix
  split_ifs <;> rfl

lemma normalizePartFl_eq_partRadix (p : List Char) :
    normalizePartFl p = jsNumToString (parseIntFl (partRadix p) p) := by
  unfold normalizePartFl partRadix
  split_ifs <;> rfl

lemma parseIntJS_intDigits (i : Int) : parseIntJS 10 (intDigits i) = some i := by
  unfold intDigits
  by_cases hi : i < 0
  · rw [if_pos hi, parseIntJS_dash_digits]
    congr 1
    omega
  · rw [if_neg hi,
      parseIntJS_all_digits (natDigits_digit _) (natDigits_ne_nil _),
      parseDigits_natDigits]
    congr 1
    omega

/-- Below `2 ^ 53` the double-faithful part normalization coincides with
the exact one. -/
lemma normalizePartFl_eq_of_small {p : List Char}
    (h : ∀ i : Int, parseIntJS (partRadix p) p = some i → i.natAbs < 2 ^ 53) :
    normalizePartFl p = normalizePart p := by
  rw [normalizePartFl_eq_partRadix, normalizePart_eq_partRadix]
  cases hpi : parseIntJS (partRadix p) p with
  | none => rw [parseIntFl_of_none hpi]; rfl
  | some i =>
    rw [parseIntFl_of_small hpi (h i hpi), jsNumToString_int_small (h i hpi)]
    rfl

lemma normalizePartFl_natDigits {n : Nat} (hn : n < 2 ^ 53) :
    normalizePartFl (natDigits n) = natDigits n := by
  have hp : parseIntJS (partRadix (natDigits n)) (natDigits n) = some (n : Int) := by
    rw [partRadix_natDigits,
      parseIntJS_all_digits (natDigits_digit n) (natDigits_ne_nil n),
      parseDigits_natDigits]
  rw [normalizePartFl_eq_of_small, normalizePart_natDigits]
  intro i hi
  rw [hp] at hi
  injection hi with hi
  omega

lemma normalizePartFl_intDigits {i : Int} (hi : i.natAbs < 2 ^ 53) :
    normalizePartFl (intDigits i) = intDigits i := by
  have hp : parseIntJS (partRadix (intDigits i)) (intDigits i) = some i := by
    rw [partRadix_intDigits]
    exact parseIntJS_intDigits i
  rw [normalizePartFl_eq_of_small, normalizePart_intDigits]
  intro j hj
  rw [hp] at hj
  injection hj with hj
  omega

lemma octetsFlL_eq (num : Nat) : octetsFlL num = octetsL num := by
  unfold octetsFlL octetsL
  rw [jsNumToString_natCast_small (lt_of_le_of_lt Nat.and_le_right (by norm_num)),
    jsNumToString_natCast_small (lt_of_le_of_lt Nat.and_le_right (by norm_num)),
    jsNumToString_natCast_small (lt_of_le_of_lt Nat.and_le_right (by norm_num)),
    jsNumToString_natCast_small (lt_of_le_of_lt Nat.and_le_right (by norm_num))]

/-- An octet rendering re-normalizes to itself, also under the
double-faithful normalizer. -/
lemma normalizeIpFlL_octets (m : Nat) : normalizeIpFlL (octetsL m) = octetsL m := by
  have hparts : ∀ p ∈ [natDigits ((m >>> 24) &&& 255), natDigits ((m >>> 16) &&& 255),
      natDigits ((m >>> 8) &&& 255), natDigits (m &&& 255)],
      ∀ c ∈ p, isDigitB c = true := by
    intro p hp
    simp only [List.mem_cons, List.not_mem_nil, or_false] at hp
    rcases hp with rfl | rfl | rfl | rfl <;> exact natDigits_digit _
  have hjoin : octetsL m = joinDots [natDigits ((m >>> 24) &&& 255),
      natDigits ((m >>> 16) &&& 255), natDigits ((m >>> 8) &&& 255),
      natDigits (m &&& 255)] := rfl
  have hdot : '.' ∈ octetsL m := by rw [hjoin]; exact dot_mem_joinDots
  have htrim : jsTrimL (octetsL m) = octetsL m := by
    apply jsTrimL_eq_self
    rw [hjoin]
    apply joinDots_chars (P := fun c => isJsWs c = false)
    · decide
    · exact fun p hp c hc => digit_not_ws (hparts p hp c hc)
  have hsplit : splitDots (octetsL m) = [natDigits ((m >>> 24) &&& 255),
      natDigits ((m >>> 16) &&& 255), natDigits ((m >>> 8) &&& 255),
      natDigits (m &&& 255)] := by
    rw [hjoin]
    exact splitDots_joinDots _ (by simp)
      (fun p hp c hc => digit_ne_dot (hparts p hp c hc))
  unfold normalizeIpFlL
  rw [htrim,
    if_neg (by rw [allDigits_false_of_dot hdot]; simp),
    if_neg (by rw [isHexLit_false_of_dot hdot]; simp),
    hsplit, if_pos (by simp)]
  simp only [List.map_cons, List.map_nil]
  rw [normalizePartFl_natDigits (lt_of_le_of_lt Nat.and_le_right (by norm_num)),
    normalizePartFl_natDigits (lt_of_le_of_lt Nat.and_le_right (by norm_num)),
    normalizePartFl_natDigits (lt_of_le_of_lt Nat.and_le_right (by norm_num)),
    normalizePartFl_natDigits (lt_of_le_of_lt Nat.and_le_right (by norm_num))]
  exact hjoin.symm

/-- A rejoined dotted quad whose parts are fixpoints of the double-faithful
part normalization re-normalizes to itself. -/
lemma normalizeIpFlL_joinParts (qs : List (List Char)) (hlen : qs.length = 4)
    (hq : ∀ q ∈ qs, ∀ c ∈ q, isDigitB c = true ∨ c = '-' ∨ c = 'N' ∨ c = 'a')
    (hfix : ∀ q ∈ qs, normalizePartFl q = q) :
    normalizeIpFlL (joinDots qs) = joinDots qs := by
  obtain ⟨q1, t1, rfl⟩ : ∃ a t, qs = a :: t := by
    cases qs with
    | nil => simp at hlen
    | cons a t => exact ⟨a, t, rfl⟩
  obtain ⟨q2, t2, rfl⟩ : ∃ a t, t1 = a :: t := by
    cases t1 with
    | nil => simp at hlen
    | cons a t => exact ⟨a, t, rfl⟩
  have hdot : '.' ∈ joinDots (q1 :: q2 :: t2) := dot_mem_joinDots
  have htrim : jsTrimL (joinDots (q1 :: q2 :: t2)) = joinDots (q1 :: q2 :: t2) := by
    apply jsTrimL_eq_self
    apply joinDots_chars (P := fun c => isJsWs c = false)
    · decide
    · exact fun q hqq c hc => partChar_not_ws (hq q hqq c hc)
  have hsplit : splitDots (joinDots (q1 :: q2 :: t2)) = q1 :: q2 :: t2 :=
    splitDots_joinDots _ (by simp)
      (fun q hqq c hc => partChar_ne_dot (hq q hqq c hc))
  unfold normalizeIpFlL
  rw [htrim,
    if_neg (by rw [allDigits_false_of_dot hdot]; simp),
    if_neg (by rw [isHexLit_false_of_dot hdot]; simp),
    hsplit, if_pos hlen, map_self hfix]

/-! ### Claim theorems: normalizer -/

set_option maxRecDepth 100000 in
/-- C3 counterexample: with genuine IEEE-754 number semantics the
normalizer is NOT idempotent.  `parseInt("1000000000000000000000", 10)` is
exactly `10 ^ 21` (representable as a double), `Number::toString` renders
any value from `10 ^ 21` on in exponential notation, so the first pass
yields `"1e+21.0.0.1"`; the second pass reparses `"1e+21"` stopping at the
`e` and yields `"1.0.0.1"`. -/
theorem normalizeIp_idem_counterexample :
    normalizeIpFl "1000000000000000000000.0.0.1" = "1e+21.0.0.1"
    ∧ normalizeIpFl (normalizeIpFl "1000000000000000000000.0.0.1") = "1.0.0.1"
    ∧ normalizeIpFl (normalizeIpFl "1000000000000000000000.0.0.1") ≠
        normalizeIpFl "1000000000000000000000.0.0.1" := by
  refine ⟨by decide, by decide, by decide⟩

/-- C3 (amended): the normalizer is idempotent on every input string in the
exact-arithmetic regime — every dot-separated part of the trimmed input
parses, at the radix the algorithm selects for it, to a value of magnitude
below `2 ^ 53`, where doubles are exact.  This is proved of the
IEEE-754-faithful normalizer; the two whole-string numeric branches are
idempotent without any hypothesis because their octet outputs are always
below 256. -/
theorem normalizeIpFl_idem_small (s : String) (h : smallParts s.data = true) :
    normalizeIpFl (normalizeIpFl s) = normalizeIpFl s := by
  have hs := smallParts_spec h
  apply congrArg String.mk
  show normalizeIpFlL (normalizeIpFlL s.data) = normalizeIpFlL s.data
  by_cases h1 : allDigits (jsTrimL s.data) = true
  · have heq : normalizeIpFlL s.data =
        octetsL (jsToUint32Fl (parseIntFl 10 (jsTrimL s.data))) := by
      unfold normalizeIpFlL
      rw [if_pos h1, octetsFlL_eq]
    rw [heq, normalizeIpFlL_octets]
  · by_cases h2 : isHexLit (jsTrimL s.data) = true
    · have heq : normalizeIpFlL s.data =
          octetsL (jsToUint32Fl (parseIntFl 16 (jsTrimL s.data))) := by
        unfold normalizeIpFlL
        rw [if_neg h1, if_pos h2, octetsFlL_eq]
      rw [heq, normalizeIpFlL_octets]
    · by_cases h3 : (splitDots (jsTrimL s.data)).length = 4
      · have hbr : (splitDots (jsTrimL s.data)).map normalizePartFl =
            (splitDots (jsTrimL s.data)).map normalizePart := by
          apply map_congr_parts
          intro p hp
          exact normalizePartFl_eq_of_small (hs p hp)
        have heq : normalizeIpFlL s.data =
            joinDots ((splitDots (jsTrimL s.data)).map normalizePart) := by
          unfold normalizeIpFlL
          rw [if_neg h1, if_neg h2, if_pos h3, hbr]
        rw [heq]
        apply normalizeIpFlL_joinParts
        · rw [List.length_map]
          exact h3
        · intro q hq c hc
          obtain ⟨p, hp, rfl⟩ := List.mem_map.mp hq
          exact normalizePart_chars p c hc
        · intro q hq
          obtain ⟨p, hp, rfl⟩ := List.mem_map.mp hq
          rw [normalizePart_eq_partRadix]
          cases hpi : parseIntJS (partRadix p) p with
          | none => decide
          | some i =>
            show normalizePartFl (intDigits i) = intDigits i
            exact normalizePartFl_intDigits (hs p hp i hpi)
      · have heq : normalizeIpFlL s.data = jsTrimL s.data := by
          unfold normalizeIpFlL
          rw [if_neg h1, if_neg h2, if_neg h3]
        rw [heq]
        unfold normalizeIpFlL
        rw [jsTrimL_idem, if_neg h1, if_neg h2, if_neg h3]

/-- Closed witness for the amended C3 at `"10.0.0.5"`. -/
theorem normalizeIpFl_idem_small_witness :
    smallParts "10.0.0.5".data = true
    ∧ normalizeIpFl (normalizeIpFl "10.0.0.5") = normalizeIpFl "10.0.0.5" :=
  ⟨by decide, normalizeIpFl_idem_small "10.0.0.5" (by decide)⟩

/-- C4: the normalizer is total — it is a plain function into `String`
(the source has no `throw` path), every input (including the empty string,
whitespace-only strings, hostnames, IPv6 literals, and garbage) falls into
one of the algorithm's three output forms, and the claim's example families
evaluate as stated. -/
theorem normalizeIp_total (s : String) :
    NormOutcome s (normalizeIp s)
    ∧ normalizeIp "" = ""
    ∧ normalizeIp "   " = ""
    ∧ normalizeIp "localhost" = "localhost"
    ∧ normalizeIp "::1" = "::1"
    ∧ normalizeIp "!!garbage??" = "!!garbage??" := by
  refine ⟨?_, by decide, by decide, by decide, by decide, by decide⟩
  exact normalizeIpL_outcome s.data

set_option maxRecDepth 100000 in
/-- C5 counterexample: with genuine IEEE-754 semantics an all-digit input
of 2 ^ 53 or more is rounded by `parseInt` to the nearest double before the
`>>>` decomposition.  At `"11111111111111111111"` (in `[2^63, 2^64)`, where
doubles are 2048 apart and the value mod 2048 is 455) the program
decomposes (rounded value) mod `2 ^ 32` — octets `181.172.112.0` — not the
input's exact value mod `2 ^ 32`, whose octets are `181.172.113.199`. -/
theorem normalizeIp_digits_uint32_counterexample :
    allDigits (jsTrimL "11111111111111111111".data) = true
    ∧ normalizeIpFl "11111111111111111111" = "181.172.112.0"
    ∧ octetsL (parseDigits 10 (jsTrimL "11111111111111111111".data) % 2 ^ 32) =
        "181.172.113.199".data
    ∧ (normalizeIpFl "11111111111111111111").data ≠
        octetsL (parseDigits 10 (jsTrimL "11111111111111111111".data) % 2 ^ 32) := by
  refine ⟨by decide, by decide, by decide, by decide⟩

/-- C5 (amended): on inputs that trim to a pure digit string whose value is
below `2 ^ 53` (so `parseInt` is exact), the IEEE-754-faithful normalizer
returns the four octets of the decimal value reduced modulo `2 ^ 32`,
extracted by successive 8-bit shifts and masks and joined with dots. -/
theorem normalizeIpFl_digits_uint32_small (s : String)
    (h : allDigits (jsTrimL s.data) = true)
    (hsmall : parseDigits 10 (jsTrimL s.data) < 2 ^ 53) :
    (normalizeIpFl s).data = octetsL (parseDigits 10 (jsTrimL s.data) % 2 ^ 32) := by
  obtain ⟨hne, hd⟩ := allDigits_true_chars h
  show normalizeIpFlL s.data = _
  unfold normalizeIpFlL
  rw [if_pos h,
    parseIntFl_of_small (parseIntJS_all_digits hd hne) (by simpa using hsmall),
    octetsFlL_eq]
  congr 1

/-- Closed witness for the amended C5 at `"167772165"`. -/
theorem normalizeIpFl_digits_uint32_small_witness :
    allDigits (jsTrimL "167772165".data) = true
    ∧ parseDigits 10 (jsTrimL "167772165".data) < 2 ^ 53
    ∧ (normalizeIpFl "167772165").data =
        octetsL (parseDigits 10 (jsTrimL "167772165".data) % 2 ^ 32) :=
  ⟨by decide, by decide,
   normalizeIpFl_digits_uint32_small "167772165" (by decide) (by decide)⟩

/-- C7: an input that, after trimming, is not all digits, is no
`0x`-hexadecimal literal, and does not split into exactly four dot-separated
parts is returned trimmed but otherwise unchanged. -/
theorem normalizeIp_passthrough (s : String)
    (h1 : allDigits (jsTrimL s.data) = false)
    (h2 : isHexLit (jsTrimL s.data) = false)
    (h3 : (splitDots (jsTrimL s.data)).length ≠ 4) :
    normalizeIp s = ⟨jsTrimL s.data⟩ := by
  apply congrArg String.mk
  unfold normalizeIpL
  rw [if_neg (by simp [h1]), if_neg (by simp [h2]), if_neg h3]

/-- Closed witness for C7 at `"localhost"`. -/
theorem normalizeIp_passthrough_witness :
    allDigits (jsTrimL "localhost".data) = false
    ∧ isHexLit (jsTrimL "localhost".data) = false
    ∧ (splitDots (jsTrimL "localhost".data)).length ≠ 4
    ∧ normalizeIp "localhost" = ⟨jsTrimL "localhost".data⟩ :=
  ⟨by decide, by decide, by decide,
   normalizeIp_passthrough "localhost" (by decide) (by decide) (by decide)⟩

/-! ### Claim theorems: gateway and harness -/

/-- C1: `useSecureGateway(targetIp, data)` raises a `CFG Policy Violation`
error if and only if `normalizeIp(targetIp)` is not in the approved set
`{"10.0.0.5", "192.168.1.50"}`; when it is a member, the call returns
`success = true`, `verified = true`, and `destination = normalizeIp targetIp`. -/
theorem useSecureGateway_policy {α β : Type} (encrypt : α → β) (targetIp : String)
    (data : α) :
    ((∃ msg, useSecureGateway encrypt targetIp data = .error msg ∧
        ∃ rest, msg = "CFG Policy Violation" ++ rest) ↔
      normalizeIp targetIp ∉ APPROVED_IPS)
    ∧ (normalizeIp targetIp ∈ APPROVED_IPS →
        useSecureGateway encrypt targetIp data =
          .ok { success := true, destination := normalizeIp targetIp,
                payload := encrypt data, verified := true }) := by
  by_cases h : normalizeIp targetIp ∈ APPROVED_IPS
  · have hc : (APPROVED_IPS.contains (normalizeIp targetIp)) = true :=
      (contains_iff_mem _ _).mpr h
    constructor
    · constructor
      · rintro ⟨msg, hmsg, -⟩
        rw [useSecureGateway, hc] at hmsg
        simp at hmsg
      · intro hn
        exact absurd h hn
    · intro _
      rw [useSecureGateway, hc]
      simp
  · have hc : (APPROVED_IPS.contains (normalizeIp targetIp)) = false := by
      cases hcc : APPROVED_IPS.contains (normalizeIp targetIp) with
      | false => rfl
      | true => exact absurd ((contains_iff_mem _ _).mp hcc) h
    constructor
    · constructor
      · intro _
        exact h
      · intro _
        refine ⟨"CFG Policy Violation: IP " ++ targetIp ++ " (normalized: " ++
          normalizeIp targetIp ++ ") is not in the approved whitelist.", ?_, ?_⟩
        · rw [useSecureGateway, hc]
          simp
        · refine ⟨": IP " ++ targetIp ++ " (normalized: " ++
            normalizeIp targetIp ++ ") is not in the approved whitelist.", ?_⟩
          have hsplit : ("CFG Policy Violation: IP " : String) =
              "CFG Policy Violation" ++ ": IP " := by decide
          rw [hsplit]
          simp only [String.append_assoc]
    · intro hmem
      exact absurd hmem h

/-- Closed witness for C1 at a concrete approved input. -/
theorem useSecureGateway_policy_witness :
    normalizeIp "10.0.0.5" ∈ APPROVED_IPS
    ∧ useSecureGateway (fun n : Nat => n + 1) "10.0.0.5" 7 =
        .ok { success := true, destination := normalizeIp "10.0.0.5",
              payload := 8, verified := true } :=
  ⟨by decide, (useSecureGateway_policy (fun n : Nat => n + 1) "10.0.0.5" 7).2 (by decide)⟩

/-- C2: the base normalizer neither range-checks octets to 0–255 nor rejects
failed numeric parses: `"999.999.999.999"` comes back unchanged with its
out-of-range octets rejoined, and an alphabetic four-part input is rewritten
to a string containing (indeed starting with) `"NaN"`. -/
theorem normalizeIp_no_range_check :
    normalizeIp "999.999.999.999" = "999.999.999.999"
    ∧ normalizeIp "abc.def.ghi.jkl" = "NaN.NaN.NaN.NaN"
    ∧ (normalizeIp "abc.def.ghi.jkl").data.take 3 = ['N', 'a', 'N'] := by
  decide

/-- C6: the spec's four canonical examples all normalize to `"10.0.0.5"`. -/
theorem normalizeIp_canonical_examples :
    normalizeIp "167772165" = "10.0.0.5"
    ∧ normalizeIp "0x0a000005" = "10.0.0.5"
    ∧ normalizeIp "012.0.0.05" = "10.0.0.5"
    ∧ normalizeIp "  10.0.0.5" = "10.0.0.5" := by
  decide

/-- C8: the generated corpus has exactly `10 + 30 + 20 + 20 + 20 = 100`
vectors (the sum of the configured per-category counts), and for every `k`
the random subset has length `min k totalVectors`.  The hypothesis records
what `Array.prototype.sort` guarantees even under an inconsistent comparator:
the shuffled copy keeps its length. -/
theorem redTeamer_vector_counts (r : Rand)
    (hshuffle : ∀ l, (r.shuffle l).length = l.length) :
    (generateAttackVectors r).length =
      TEST_CONFIG.scenarios.directIPs + TEST_CONFIG.scenarios.obfuscatedIPs +
      TEST_CONFIG.scenarios.malformedIPs + TEST_CONFIG.scenarios.encryptionTests +
      TEST_CONFIG.scenarios.complexityTests
    ∧ (generateAttackVectors r).length = 100
    ∧ ∀ k : Nat, (getRandomSubset r k).length = min k (generateAttackVectors r).length := by
  have hlen : (generateAttackVectors r).length = 100 := by
    simp [generateAttackVectors, generateDirectIPAttacks, generateObfuscationAttacks,
      generateMalformedAttacks, generateEncryptionAttacks, generateComplexityAttacks,
      TEST_CONFIG]
  refine ⟨by rw [hlen]; rfl, hlen, ?_⟩
  intro k
  simp [getRandomSubset, List.length_take, hshuffle]

/-- Closed witness for C8 with the identity shuffle and `k = 7`. -/
theorem redTeamer_vector_counts_witness :
    (generateAttackVectors trivialRand).length = 100
    ∧ (getRandomSubset trivialRand 7).length =
        min 7 (generateAttackVectors trivialRand).length :=
  ⟨(redTeamer_vector_counts trivialRand (fun _ => rfl)).2.1,
   (redTeamer_vector_counts trivialRand (fun _ => rfl)).2.2 7⟩

/-- C9: in the report built by `runFullSuite`, `meetsTarget` holds iff the
realized pass@1 is at least the configured target `0.999`, and the runner
exits with code 0 iff `meetsTarget` (else code 1). -/
theorem runFullSuite_meetsTarget_exitCode (stats : RunningStats) (duration : Nat)
    (violationBreakdown : List (String × Nat)) :
    ((mkTestResult stats duration violationBreakdown).meetsTarget = true ↔
      stats.pass1 ≥ 999 / 1000)
    ∧ (mainExitCode (mkTestResult stats duration violationBreakdown) = 0 ↔
        (mkTestResult stats duration violationBreakdown).meetsTarget = true)
    ∧ (mainExitCode (mkTestResult stats duration violationBreakdown) = 1 ↔
        (mkTestResult stats duration violationBreakdown).meetsTarget = false) := by
  refine ⟨?_, ?_, ?_⟩
  · simp [mkTestResult, TEST_CONFIG]
  · by_cases h : (mkTestResult stats duration violationBreakdown).meetsTarget <;>
      simp [mainExitCode, h]
  · by_cases h : (mkTestResult stats duration violationBreakdown).meetsTarget <;>
      simp [mainExitCode, h]

/-- C10: batched dispatch is equivalent to sequential mapping: with a
positive concurrency bound, `runConcurrentTests` returns one result per
context, in input order, each equal to `verify` of that context. -/
theorem runConcurrentTests_eq_map {α β : Type} (verify : α → β) (contexts : List α)
    (concurrency : Nat) (hc : 0 < concurrency) :
    runConcurrentTests verify contexts concurrency = contexts.map verify := by
  have H : ∀ n (l : List α), l.length ≤ n →
      runConcurrentTests verify l concurrency = l.map verify := by
    intro n
    induction n with
    | zero =>
      intro l hl
      have hnil : l = [] := List.eq_nil_of_length_eq_zero (Nat.le_zero.mp hl)
      subst hnil
      rw [runConcurrentTests]
      simp
    | succ n ih =>
      intro l hl
      rw [runConcurrentTests]
      cases l with
      | nil => simp
      | cons a t =>
        rw [if_neg (by simp), if_neg (Nat.pos_iff_ne_zero.mp hc)]
        rw [ih ((a :: t).drop concurrency) (by simp at hl ⊢; omega)]
        rw [← List.map_append, List.take_append_drop]

  exact H contexts.length contexts le_rfl

/-- Closed witness for C10 at a concrete batch size. -/
theorem runConcurrentTests_eq_map_witness :
    (0 : Nat) < 2
    ∧ runConcurrentTests (fun n : Nat => n * 2) [1, 2, 3] 2 =
        List.map (fun n : Nat => n * 2) [1, 2, 3] :=
  ⟨by decide, runConcurrentTests_eq_map (fun n : Nat => n * 2) [1, 2, 3] 2 (by decide)⟩

end BoltLattice
